import Mathlib

/-!
Shallow embedding of `src/vector_search.py`, a small in-memory vector-space
search engine: term-frequency extraction (`create_concordance`), Euclidean
magnitude, cosine similarity, and ranked retrieval (`search`).

Modelling choices:
* A Python `dict` (term-frequency mapping) is an association list
  `List (String × Int)` with insertion-order semantics: lookup reads the first
  matching key, assignment overwrites the first matching key in place and
  appends new keys at the end, exactly as Python dicts behave.  The dict
  representation invariant (keys unique) is the predicate `KeysNodup`.
* Python `float` arithmetic is idealised as exact real arithmetic (`ℝ`);
  `math.sqrt` is `Real.sqrt`.
* Dynamically typed arguments are values of `PyVal`; functions that can raise
  return `Except PyErr`.  `PyErr.typeKind` models the explicitly raised
  `ValueError` type guards (the spec's `TypeKind`); `PyErr.attributeError`
  models the interpreter's `AttributeError` on a missing attribute.
* Python's built-in `sorted(..., reverse=True, key=fst)` is a stable
  descending sort; it is modelled by the stable insertion sort `sortDesc`.
-/

namespace VectorSearch

/-- A term-frequency mapping: Python dict from word to count. -/
abbrev Concordance := List (String × Int)

/-- `concordance.get(word, 0)`: value at the first occurrence of `w`, else 0. -/
def getD : Concordance → String → Int
  | [], _ => 0
  | p :: c, w => if p.1 = w then p.2 else getD c w

/-- `concordance[word] = n`: overwrite the first occurrence of `w` in place,
or append `(w, n)` if `w` is absent (Python dict assignment). -/
def setKey : Concordance → String → Int → Concordance
  | [], w, n => [(w, n)]
  | p :: c, w, n => if p.1 = w then (w, n) :: c else p :: setKey c w n

/-- One loop iteration of `create_concordance`:
`concordance[word] = concordance.get(word, 0) + 1`. -/
def updateCount (c : Concordance) (w : String) : Concordance :=
  setKey c w (getD c w + 1)

/-- The counting loop of `create_concordance` over an already-split word list. -/
def buildConcordance (ws : List String) : Concordance :=
  ws.foldl updateCount []

/-- `s.lower()`, with `Char.toLower` modelling Python's per-character lowercasing. -/
def pyLower (s : String) : String :=
  String.mk (s.data.map Char.toLower)

/-- Accumulator-based splitter behind `pySplit`. -/
def splitAux : List Char → List Char → List String
  | [], acc => if acc.isEmpty then [] else [String.mk acc.reverse]
  | ch :: cs, acc =>
    if ch.isWhitespace then
      if acc.isEmpty then splitAux cs []
      else String.mk acc.reverse :: splitAux cs []
    else splitAux cs (ch :: acc)

/-- `s.split()`: split on runs of whitespace, producing no empty tokens. -/
def pySplit (s : String) : List String :=
  splitAux s.data []

/-- The string path of `create_concordance`:
`words = document.lower().split()`, then the counting loop. -/
def createConcStr (s : String) : Concordance :=
  buildConcordance (pySplit (pyLower s))

/-- The dict representation invariant: keys are unique. -/
def KeysNodup (c : Concordance) : Prop :=
  (c.map Prod.fst).Nodup

instance (c : Concordance) : Decidable (KeysNodup c) := by
  unfold KeysNodup; infer_instance

/-- `sum(count ** 2 for count in concordance.values())`. -/
def magnitudeSq (c : Concordance) : Int :=
  (c.map (fun p => p.2 ^ 2)).sum

/-- `VectorCompare.magnitude`: `math.sqrt` of the sum of squared counts. -/
noncomputable def magnitude (c : Concordance) : ℝ :=
  Real.sqrt ((magnitudeSq c : ℝ))

/-- `sum(concordance1.get(word, 0) * concordance2.get(word, 0) for word in concordance1)`:
the loop iterates over the first dict's keys and looks both sides up with `get`. -/
def dotProduct (a b : Concordance) : Int :=
  ((a.map Prod.fst).map (fun w => getD a w * getD b w)).sum

/-- `VectorCompare.similarity` on well-typed inputs:
`dot_product / magnitude_product if magnitude_product else 0`. -/
noncomputable def similarity (a b : Concordance) : ℝ :=
  let dp : ℝ := (dotProduct a b : ℝ)
  let mp : ℝ := magnitude a * magnitude b
  if mp = 0 then 0 else dp / mp

/-- The sum of all stored counts of a concordance. -/
def sumCounts (c : Concordance) : Int :=
  (c.map (fun p => p.2)).sum

/-- A dynamically typed Python value, as far as this program inspects one. -/
inductive PyVal where
  | str (s : String)
  | dict (d : Concordance)
  | int (n : Int)
  | pyNone
deriving DecidableEq

/-- `isinstance(v, str)`. -/
def PyVal.isStr : PyVal → Bool
  | .str _ => true
  | _ => false

/-- `isinstance(v, dict)`. -/
def PyVal.isDict : PyVal → Bool
  | .dict _ => true
  | _ => false

/-- The error kinds this program can produce: the explicitly raised
`ValueError` guards (the spec's `TypeKind`), and the interpreter's
`AttributeError` for an attribute access on a value lacking it. -/
inductive PyErr where
  | typeKind
  | attributeError (attr : String)
deriving DecidableEq

/-- `create_concordance(document)` with its type guard:
`raise ValueError` unless the argument is a string. -/
def create_concordance (v : PyVal) : Except PyErr Concordance :=
  match v with
  | .str s => .ok (createConcStr s)
  | _ => .error .typeKind

/-- `VectorCompare.magnitude` with its type guard:
`raise ValueError` unless the argument is a dict. -/
noncomputable def magnitudePy (v : PyVal) : Except PyErr ℝ :=
  match v with
  | .dict d => .ok (magnitude d)
  | _ => .error .typeKind

/-- `VectorCompare.similarity` with its type guard:
`raise ValueError` unless both arguments are dicts. -/
noncomputable def similarityPy (a b : PyVal) : Except PyErr ℝ :=
  match a, b with
  | .dict d1, .dict d2 => .ok (similarity d1 d2)
  | _, _ => .error .typeKind

/-- `v.lower()`: only strings have the `lower` attribute; on any other value
the interpreter raises `AttributeError` before any guard can run. -/
def pyLowerAttr (v : PyVal) : Except PyErr String :=
  match v with
  | .str s => .ok (pyLower s)
  | _ => .error (.attributeError "lower")

/-- Stable descending insertion: place `x` before the first element whose
score is `≤` its own, so earlier-inserted elements win ties. -/
noncomputable def insertDesc (x : ℝ × Nat) : List (ℝ × Nat) → List (ℝ × Nat)
  | [] => [x]
  | y :: l => if y.1 ≤ x.1 then x :: y :: l else y :: insertDesc x l

/-- `sorted(matches, reverse=True, key=lambda x: x[0])`: Python's `sorted` is
a stable sort; with `reverse=True` it orders by descending score and keeps
tied elements in input order, which this insertion sort reproduces. -/
noncomputable def sortDesc : List (ℝ × Nat) → List (ℝ × Nat)
  | [] => []
  | x :: l => insertDesc x (sortDesc l)

/-- The ranking core of `search`, abstracted over the query vector and the
index it closes over: score every document, then stable-sort descending. -/
noncomputable def rank (qv : Concordance) (idx : List (Nat × Concordance)) :
    List (ℝ × Nat) :=
  sortDesc (idx.map (fun p => (similarity qv p.2, p.1)))

/-- The module-level `documents` dict. -/
def documents : List (Nat × String) :=
  [(0, "The quick brown fox jumps over the lazy dog"),
   (1, "The fast fox leaps over a sleeping dog"),
   (2, "Dogs are common pets in many households"),
   (3, "A fox is a wild animal, not a pet")]

/-- The module-level `index`:
`{doc_id: create_concordance(text.lower()) for doc_id, text in documents.items()}`. -/
def index : List (Nat × Concordance) :=
  documents.map (fun p => (p.1, createConcStr (pyLower p.2)))

/-- `search(query)`: `query.lower()` runs first (and fails with
`AttributeError` on a non-string), then `create_concordance`, then scoring
and the stable descending sort. -/
noncomputable def search (query : PyVal) : Except PyErr (List (ℝ × Nat)) :=
  match pyLowerAttr query with
  | .error e => .error e
  | .ok lowered =>
    match create_concordance (.str lowered) with
    | .error e => .error e
    | .ok qv => .ok (rank qv index)

example : createConcStr "a a" = [("a", 2)] := by decide

/-! ### Helper lemmas about the concordance builder -/

theorem sumCounts_nil : sumCounts [] = 0 := rfl

theorem sumCounts_cons (p : String × Int) (c : Concordance) :
    sumCounts (p :: c) = p.2 + sumCounts c := by
  simp [sumCounts]

theorem sumCounts_updateCount (c : Concordance) (w : String) :
    sumCounts (updateCount c w) = sumCounts c + 1 := by
  unfold updateCount
  induction c with
  | nil => simp [setKey, getD, sumCounts]
  | cons p c ih =>
    by_cases h : p.1 = w
    · simp [setKey, getD, h, sumCounts_cons]
      ring
    · simp only [setKey, getD, h, if_neg, if_false, sumCounts_cons, ih]
      ring

theorem sumCounts_foldl (ws : List String) :
    ∀ c : Concordance, sumCounts (ws.foldl updateCount c) = sumCounts c + ws.length := by
  induction ws with
  | nil => intro c; simp
  | cons w ws ih =>
    intro c
    simp only [List.foldl_cons, ih, sumCounts_updateCount, List.length_cons]
    push_cast
    ring

theorem mem_setKey {p : String × Int} {c : Concordance} {w : String} {n : Int}
    (hp : p ∈ setKey c w n) : p = (w, n) ∨ p ∈ c := by
  induction c with
  | nil => simpa [setKey] using hp
  | cons q c ih =>
    by_cases h : q.1 = w
    · simp only [setKey, h, if_pos] at hp
      rcases List.mem_cons.mp hp with h1 | h1
      · exact Or.inl h1
      · exact Or.inr (List.mem_cons_of_mem _ h1)
    · simp only [setKey, h, if_neg, if_false] at hp
      rcases List.mem_cons.mp hp with h1 | h1
      · exact Or.inr (h1 ▸ List.mem_cons_self _ _)
      · rcases ih h1 with h2 | h2
        · exact Or.inl h2
        · exact Or.inr (List.mem_cons_of_mem _ h2)

theorem getD_nonneg {c : Concordance} (hc : ∀ p ∈ c, (0 : ℤ) ≤ p.2) (w : String) :
    0 ≤ getD c w := by
  induction c with
  | nil => simp [getD]
  | cons p c ih =>
    by_cases h : p.1 = w
    · simpa [getD, h] using hc p (List.mem_cons_self _ _)
    · simp only [getD, h, if_neg, if_false]
      exact ih (fun q hq => hc q (List.mem_cons_of_mem _ hq))

theorem foldl_updateCount_pos (ws : List String) :
    ∀ c : Concordance, (∀ p ∈ c, (1 : ℤ) ≤ p.2) →
      ∀ p ∈ ws.foldl updateCount c, (1 : ℤ) ≤ p.2 := by
  induction ws with
  | nil => intro c hc; simpa using hc
  | cons w ws ih =>
    intro c hc
    refine ih (updateCount c w) ?_
    intro p hp
    rcases mem_setKey hp with h | h
    · have h0 : 0 ≤ getD c w := getD_nonneg (fun q hq => (hc q hq).trans' (by norm_num)) w
      rw [h]
      omega
    · exact hc p h

/-! ### Lookup lemmas under the dict representation invariant -/

theorem getD_eq_of_mem_nodup {c : Concordance} (hc : KeysNodup c)
    {p : String × Int} (hp : p ∈ c) : getD c p.1 = p.2 := by
  induction c with
  | nil => cases hp
  | cons q c ih =>
    rcases List.mem_cons.mp hp with h | h
    · subst h
      simp [getD]
    · have hq : q.1 ∉ c.map Prod.fst := (List.nodup_cons.mp hc).1
      have hne : q.1 ≠ p.1 := by
        intro he
        exact hq (he ▸ List.mem_map_of_mem Prod.fst h)
      simp only [getD, hne, if_neg, if_false]
      exact ih (List.nodup_cons.mp hc).2 h

theorem getD_eq_zero_of_not_mem {c : Concordance} {w : String}
    (hw : w ∉ c.map Prod.fst) : getD c w = 0 := by
  induction c with
  | nil => rfl
  | cons q c ih =>
    simp only [List.map_cons, List.mem_cons, not_or] at hw
    have hne : q.1 ≠ w := fun he => hw.1 he.symm
    simp only [getD, if_neg hne]
    exact ih hw.2

/-- The key set of a concordance as a finset. -/
def keyFinset (c : Concordance) : Finset String :=
  (c.map Prod.fst).toFinset

theorem getD_eq_zero_of_not_mem_keyFinset {c : Concordance} {w : String}
    (hw : w ∉ keyFinset c) : getD c w = 0 :=
  getD_eq_zero_of_not_mem (fun h => hw (List.mem_toFinset.mpr h))

theorem dotProduct_eq_finset_sum {a : Concordance} (ha : KeysNodup a)
    (b : Concordance) :
    dotProduct a b = ∑ w ∈ keyFinset a, getD a w * getD b w := by
  rw [dotProduct, keyFinset, List.sum_toFinset _ ha]

theorem magnitudeSq_eq_finset_sum {a : Concordance} (ha : KeysNodup a) :
    magnitudeSq a = ∑ w ∈ keyFinset a, (getD a w) ^ 2 := by
  rw [keyFinset, List.sum_toFinset _ ha, List.map_map, magnitudeSq]
  congr 1
  exact List.map_congr_left fun p hp => by
    simp [Function.comp, getD_eq_of_mem_nodup ha hp]

theorem magnitudeSq_nonneg (c : Concordance) : 0 ≤ magnitudeSq c := by
  refine List.sum_nonneg ?_
  intro x hx
  rcases List.mem_map.mp hx with ⟨p, _, rfl⟩
  positivity

/-- Extending a key-indexed sum with vanishing terms to a larger key set. -/
theorem sum_keyFinset_extend {a : Concordance} (t : Finset String)
    (hsub : keyFinset a ⊆ t) (g : String → ℤ)
    (hg : ∀ w, getD a w = 0 → g w = 0) :
    ∑ w ∈ keyFinset a, g w = ∑ w ∈ t, g w :=
  Finset.sum_subset hsub fun w _ hw =>
    hg w (getD_eq_zero_of_not_mem_keyFinset hw)

/-! ### C6: symmetry of similarity -/

theorem dotProduct_comm {a b : Concordance} (ha : KeysNodup a)
    (hb : KeysNodup b) : dotProduct a b = dotProduct b a := by
  rw [dotProduct_eq_finset_sum ha, dotProduct_eq_finset_sum hb]
  rw [sum_keyFinset_extend (keyFinset a ∪ keyFinset b)
        Finset.subset_union_left (fun w => getD a w * getD b w)
        (fun w h => by simp [h])]
  rw [sum_keyFinset_extend (keyFinset a ∪ keyFinset b)
        Finset.subset_union_right (fun w => getD b w * getD a w)
        (fun w h => by simp [h])]
  exact Finset.sum_congr rfl fun w _ => mul_comm _ _

/-- C6: `similarity` is symmetric even though the dot-product loop iterates
only over the first argument's keys, because a key missing on either side
contributes a zero factor. -/
theorem similarity_comm (a b : Concordance) (ha : KeysNodup a)
    (hb : KeysNodup b) : similarity a b = similarity b a := by
  simp only [similarity, dotProduct_comm ha hb, mul_comm (magnitude a)]

/-- Witness for C6 at a concrete pair of mappings. -/
theorem similarity_comm_witness :
    KeysNodup [("a", 1)] ∧ KeysNodup [("b", 2), ("a", 3)] ∧
      similarity [("a", 1)] [("b", 2), ("a", 3)] =
        similarity [("b", 2), ("a", 3)] [("a", 1)] :=
  ⟨by decide, by decide,
    similarity_comm [("a", 1)] [("b", 2), ("a", 3)] (by decide) (by decide)⟩

/-! ### C2: self-similarity is exactly 1 -/

theorem dotProduct_self {v : Concordance} (hv : KeysNodup v) :
    dotProduct v v = magnitudeSq v := by
  rw [dotProduct_eq_finset_sum hv, magnitudeSq_eq_finset_sum hv]
  exact Finset.sum_congr rfl fun w _ => (sq (getD v w)).symm

theorem magnitudeSq_pos {v : Concordance} (hne : v ≠ [])
    (hpos : ∀ p ∈ v, (0 : ℤ) < p.2) : 0 < magnitudeSq v := by
  cases v with
  | nil => exact absurd rfl hne
  | cons p c =>
    have h1 : (0 : ℤ) < p.2 ^ 2 :=
      pow_pos (hpos p (List.mem_cons_self _ _)) 2
    have h2 : 0 ≤ magnitudeSq c := magnitudeSq_nonneg c
    have : magnitudeSq (p :: c) = p.2 ^ 2 + magnitudeSq c := by
      simp [magnitudeSq]
    omega

/-- C2: for every non-empty mapping with positive counts, the similarity of a
vector with itself is exactly 1. -/
theorem similarity_self (v : Concordance) (hv : KeysNodup v) (hne : v ≠ [])
    (hpos : ∀ p ∈ v, (0 : ℤ) < p.2) : similarity v v = 1 := by
  have hS : 0 < magnitudeSq v := magnitudeSq_pos hne hpos
  have hSR : (0 : ℝ) < (magnitudeSq v : ℝ) := by exact_mod_cast hS
  have hmag : magnitude v * magnitude v = (magnitudeSq v : ℝ) :=
    Real.mul_self_sqrt hSR.le
  have hdp : ((dotProduct v v : ℝ)) = (magnitudeSq v : ℝ) := by
    rw [dotProduct_self hv]
  simp only [similarity, hmag, hdp, if_neg hSR.ne', div_self hSR.ne']

/-- Witness for C2 at the concrete mapping produced by `vectorize("b a a")`. -/
theorem similarity_self_witness :
    KeysNodup [("b", 1), ("a", 2)] ∧ ([("b", 1), ("a", 2)] : Concordance) ≠ [] ∧
      (∀ p ∈ ([("b", 1), ("a", 2)] : Concordance), (0 : ℤ) < p.2) ∧
      similarity [("b", 1), ("a", 2)] [("b", 1), ("a", 2)] = 1 :=
  ⟨by decide, by decide, by decide,
    similarity_self [("b", 1), ("a", 2)] (by decide) (by decide) (by decide)⟩

/-! ### C5: similarity lies in the unit interval -/

theorem magnitude_nonneg (c : Concordance) : 0 ≤ magnitude c :=
  Real.sqrt_nonneg _

theorem magnitude_eq_sqrt_keyFinset {a : Concordance} (ha : KeysNodup a) :
    magnitude a = Real.sqrt (∑ w ∈ keyFinset a, ((getD a w : ℝ)) ^ 2) := by
  rw [magnitude, magnitudeSq_eq_finset_sum ha]
  congr 1
  push_cast
  rfl

/-- C5: for mappings whose counts are all non-negative, `similarity` lies in
the closed interval `[0, 1]` (Cauchy-Schwarz bounds the dot product by the
product of magnitudes). -/
theorem similarity_mem_unit_interval (a b : Concordance)
    (ha : KeysNodup a) (hb : KeysNodup b)
    (hna : ∀ p ∈ a, (0 : ℤ) ≤ p.2) (hnb : ∀ p ∈ b, (0 : ℤ) ≤ p.2) :
    0 ≤ similarity a b ∧ similarity a b ≤ 1 := by
  by_cases hmp : magnitude a * magnitude b = 0
  · constructor <;> simp [similarity, hmp]
  · have hmpnn : 0 ≤ magnitude a * magnitude b :=
      mul_nonneg (magnitude_nonneg a) (magnitude_nonneg b)
    have hmppos : 0 < magnitude a * magnitude b :=
      lt_of_le_of_ne hmpnn (Ne.symm hmp)
    have hdotnn : (0 : ℝ) ≤ ((dotProduct a b : ℝ)) := by
      have h : 0 ≤ dotProduct a b := by
        rw [dotProduct_eq_finset_sum ha]
        exact Finset.sum_nonneg fun w _ =>
          mul_nonneg (getD_nonneg hna w) (getD_nonneg hnb w)
      exact_mod_cast h
    have h1 : ((dotProduct a b : ℝ)) =
        ∑ w ∈ keyFinset a, ((getD a w : ℝ)) * ((getD b w : ℝ)) := by
      rw [dotProduct_eq_finset_sum ha]
      push_cast
      rfl
    have hsub : (∑ w ∈ keyFinset a, ((getD b w : ℝ)) ^ 2) ≤
        ∑ w ∈ keyFinset b, ((getD b w : ℝ)) ^ 2 := by
      have h2 : (∑ w ∈ keyFinset a ∩ keyFinset b, ((getD b w : ℝ)) ^ 2) =
          ∑ w ∈ keyFinset a, ((getD b w : ℝ)) ^ 2 := by
        refine Finset.sum_subset Finset.inter_subset_left ?_
        intro w hwA hwAB
        have hwB : w ∉ keyFinset b := fun hB =>
          hwAB (Finset.mem_inter.mpr ⟨hwA, hB⟩)
        rw [getD_eq_zero_of_not_mem_keyFinset hwB]
        norm_num
      rw [← h2]
      exact Finset.sum_le_sum_of_subset_of_nonneg
        Finset.inter_subset_right (fun w _ _ => sq_nonneg _)
    have hmb : Real.sqrt (∑ w ∈ keyFinset a, ((getD b w : ℝ)) ^ 2) ≤
        magnitude b := by
      rw [magnitude_eq_sqrt_keyFinset hb]
      exact Real.sqrt_le_sqrt hsub
    have key : ((dotProduct a b : ℝ)) ≤ magnitude a * magnitude b := by
      calc ((dotProduct a b : ℝ))
          = ∑ w ∈ keyFinset a, ((getD a w : ℝ)) * ((getD b w : ℝ)) := h1
        _ ≤ Real.sqrt (∑ w ∈ keyFinset a, ((getD a w : ℝ)) ^ 2) *
              Real.sqrt (∑ w ∈ keyFinset a, ((getD b w : ℝ)) ^ 2) :=
            Real.sum_mul_le_sqrt_mul_sqrt _ _ _
        _ ≤ magnitude a * magnitude b := by
            rw [← magnitude_eq_sqrt_keyFinset ha]
            exact mul_le_mul_of_nonneg_left hmb (magnitude_nonneg a)
    constructor
    · simp only [similarity, if_neg hmp]
      exact div_nonneg hdotnn hmpnn
    · simp only [similarity, if_neg hmp]
      rw [div_le_one hmppos]
      exact key

/-- Witness for C5 at a concrete pair of mappings with non-negative counts. -/
theorem similarity_mem_unit_interval_witness :
    KeysNodup [("a", 1), ("b", 2)] ∧ KeysNodup [("b", 1)] ∧
      (∀ p ∈ ([("a", 1), ("b", 2)] : Concordance), (0 : ℤ) ≤ p.2) ∧
      (∀ p ∈ ([("b", 1)] : Concordance), (0 : ℤ) ≤ p.2) ∧
      (0 ≤ similarity [("a", 1), ("b", 2)] [("b", 1)] ∧
        similarity [("a", 1), ("b", 2)] [("b", 1)] ≤ 1) :=
  ⟨by decide, by decide, by decide, by decide,
    similarity_mem_unit_interval [("a", 1), ("b", 2)] [("b", 1)]
      (by decide) (by decide) (by decide) (by decide)⟩

/-! ### C7, C9: properties of vectorize -/

/-- C7: for every string `s`, the counts in `vectorize(s)` sum to the number
of whitespace-separated tokens of `s.lower()`; in particular the empty string
yields an empty mapping, not an error. -/
theorem vectorize_sumCounts_eq_token_count :
    (∀ s : String,
        sumCounts (createConcStr s) = ((pySplit (pyLower s)).length : ℤ)) ∧
      createConcStr "" = [] := by
  constructor
  · intro s
    unfold createConcStr buildConcordance
    rw [sumCounts_foldl]
    simp [sumCounts]
  · decide

/-- C9: every value stored by `vectorize` is at least 1; a term with zero
occurrences is absent from the mapping, never stored with count 0. -/
theorem vectorize_values_pos (s : String) (p : String × Int)
    (hp : p ∈ createConcStr s) : (1 : ℤ) ≤ p.2 :=
  foldl_updateCount_pos _ [] (by simp) p hp

/-- Witness for C9 at the concrete input `"b a a"`. -/
theorem vectorize_values_pos_witness :
    ("a", (2 : ℤ)) ∈ createConcStr "b a a" ∧ (1 : ℤ) ≤ 2 :=
  ⟨by decide, vectorize_values_pos "b a a" ("a", 2) (by decide)⟩

/-! ### C8: magnitude is the Euclidean norm -/

theorem magnitudeSq_cast (c : Concordance) :
    ((magnitudeSq c : ℝ)) = (c.map (fun p => ((p.2 : ℝ)) ^ 2)).sum := by
  induction c with
  | nil => simp [magnitudeSq]
  | cons p c ih =>
    simp only [magnitudeSq, List.map_cons, List.sum_cons] at *
    push_cast
    rw [← ih]
    push_cast
    ring

/-- C8: `magnitude` is the square root of the sum of the squares of the
counts; the empty mapping has magnitude 0, and `magnitude(vectorize("a a"))`
is exactly 2. -/
theorem magnitude_euclidean :
    (∀ c : Concordance,
        magnitude c = Real.sqrt ((c.map (fun p => ((p.2 : ℝ)) ^ 2)).sum)) ∧
      magnitude [] = 0 ∧ magnitude (createConcStr "a a") = 2 := by
  refine ⟨fun c => by rw [magnitude, magnitudeSq_cast], ?_, ?_⟩
  · simp [magnitude, magnitudeSq]
  · have h : createConcStr "a a" = [("a", 2)] := by decide
    rw [h, magnitude]
    have h4 : ((magnitudeSq [("a", 2)] : ℝ)) = (2 : ℝ) ^ 2 := by
      norm_num [magnitudeSq]
    rw [h4, Real.sqrt_sq (by norm_num)]

/-! ### C3: zero-magnitude guard -/

/-- C3: if either magnitude is 0 (in particular for an empty mapping),
`similarity` returns 0 via its guard; the division branch is not taken. -/
theorem similarity_zero_magnitude (a b : Concordance)
    (h : magnitude a = 0 ∨ magnitude b = 0) : similarity a b = 0 := by
  have hmp : magnitude a * magnitude b = 0 := by
    rcases h with h | h <;> simp [h]
  simp [similarity, hmp]

/-- Witness for C3 at a concrete pair: the empty mapping has magnitude 0 and
similarity with it is 0. -/
theorem similarity_zero_magnitude_witness :
    magnitude ([] : Concordance) = 0 ∧ similarity [] [("hello", 1)] = 0 := by
  have h : magnitude ([] : Concordance) = 0 := by simp [magnitude, magnitudeSq]
  exact ⟨h, similarity_zero_magnitude [] [("hello", 1)] (Or.inl h)⟩

/-! ### C1: the type guards, and the error kinds the program raises -/

/-- C1 as stated is false: the program can raise an error kind other than
`TypeKind`, because `search` hits `AttributeError` on `query.lower()` for the
non-string query `5` before any guard runs. -/
theorem typeKind_not_only_error_kind :
    search (PyVal.int 5) = .error (.attributeError "lower") ∧
      PyErr.attributeError "lower" ≠ PyErr.typeKind := by
  exact ⟨rfl, by decide⟩

/-- C1 amended: every non-string input makes `create_concordance` fail with
`TypeKind`, and every non-mapping input makes `magnitude` / `similarity` fail
with `TypeKind`; `TypeKind` is the only error kind these guarded operations
raise, though not the only kind the program can raise. -/
theorem type_guards_raise_typeKind :
    (∀ v : PyVal, v.isStr = false → create_concordance v = .error .typeKind) ∧
      (∀ v : PyVal, v.isDict = false → magnitudePy v = .error .typeKind) ∧
      (∀ a b : PyVal, a.isDict = false ∨ b.isDict = false →
        similarityPy a b = .error .typeKind) := by
  refine ⟨?_, ?_, ?_⟩
  · intro v h
    cases v <;> first | rfl | simp [PyVal.isStr] at h
  · intro v h
    cases v <;> first | rfl | simp [PyVal.isDict] at h
  · intro a b h
    cases a <;> cases b <;>
      first | rfl | simp [PyVal.isDict] at h

/-- Witness for the amended C1 at concrete ill-typed inputs. -/
theorem type_guards_raise_typeKind_witness :
    create_concordance (PyVal.int 3) = .error .typeKind ∧
      magnitudePy (PyVal.str "x") = .error .typeKind ∧
      similarityPy (PyVal.dict []) (PyVal.int 0) = .error .typeKind :=
  ⟨type_guards_raise_typeKind.1 _ rfl,
   type_guards_raise_typeKind.2.1 _ rfl,
   type_guards_raise_typeKind.2.2 _ _ (Or.inr rfl)⟩

/-! ### C10: search fails before the guard on non-string queries -/

/-- C10: for every non-string query, `search` fails at `query.lower()` with
an attribute error, so the `TypeKind` guard inside `create_concordance` is
unreachable on that path and the error raised is not `TypeKind`. -/
theorem search_nonstring_attribute_error (v : PyVal) (h : v.isStr = false) :
    search v = .error (.attributeError "lower") ∧
      search v ≠ .error PyErr.typeKind := by
  cases v with
  | str s => simp [PyVal.isStr] at h
  | dict d => exact ⟨rfl, by intro hc; exact absurd (Except.error.inj hc) (by decide)⟩
  | int n => exact ⟨rfl, by intro hc; exact absurd (Except.error.inj hc) (by decide)⟩
  | pyNone => exact ⟨rfl, by intro hc; exact absurd (Except.error.inj hc) (by decide)⟩

/-- Witness for C10 at the concrete non-string query `{}` (a dict). -/
theorem search_nonstring_attribute_error_witness :
    (PyVal.dict []).isStr = false ∧
      (search (PyVal.dict []) = .error (.attributeError "lower") ∧
        search (PyVal.dict []) ≠ .error PyErr.typeKind) :=
  ⟨rfl, search_nonstring_attribute_error (PyVal.dict []) rfl⟩

/-! ### C4: the ranking is a stable descending sort of the scored index -/

/-- The descending-score relation the sort establishes. -/
def ScoreGE (u v : ℝ × Nat) : Prop := v.1 ≤ u.1

theorem insertDesc_perm (x : ℝ × Nat) (l : List (ℝ × Nat)) :
    (insertDesc x l).Perm (x :: l) := by
  induction l with
  | nil => rfl
  | cons y l ih =>
    by_cases h : y.1 ≤ x.1
    · simp only [insertDesc, if_pos h]
      exact List.Perm.refl _
    · simp only [insertDesc, if_neg h]
      exact (ih.cons y).trans (List.Perm.swap x y l)

theorem sortDesc_perm (l : List (ℝ × Nat)) : (sortDesc l).Perm l := by
  induction l with
  | nil => rfl
  | cons x l ih =>
    exact (insertDesc_perm x (sortDesc l)).trans (ih.cons x)

theorem insertDesc_pairwise {x : ℝ × Nat} {l : List (ℝ × Nat)}
    (hl : List.Pairwise ScoreGE l) :
    List.Pairwise ScoreGE (insertDesc x l) := by
  induction l with
  | nil => simp [insertDesc, List.pairwise_singleton]
  | cons y l ih =>
    rcases List.pairwise_cons.mp hl with ⟨hy, hl'⟩
    by_cases h : y.1 ≤ x.1
    · simp only [insertDesc, if_pos h]
      refine List.pairwise_cons.mpr ⟨?_, hl⟩
      intro z hz
      rcases List.mem_cons.mp hz with rfl | hz
      · exact h
      · exact (hy z hz).trans h
    · simp only [insertDesc, if_neg h]
      refine List.pairwise_cons.mpr ⟨?_, ih hl'⟩
      intro z hz
      have hz' : z ∈ x :: l := (insertDesc_perm x l).mem_iff.mp hz
      rcases List.mem_cons.mp hz' with rfl | hz'
      · exact (le_of_not_le h)
      · exact hy z hz'

theorem sortDesc_pairwise (l : List (ℝ × Nat)) :
    List.Pairwise ScoreGE (sortDesc l) := by
  induction l with
  | nil => exact List.Pairwise.nil
  | cons x l ih => exact insertDesc_pairwise ih

theorem insertDesc_filter_score (x : ℝ × Nat) (l : List (ℝ × Nat)) (s : ℝ) :
    (insertDesc x l).filter (fun p => decide (p.1 = s)) =
      (x :: l).filter (fun p => decide (p.1 = s)) := by
  induction l with
  | nil => rfl
  | cons y l ih =>
    by_cases h : y.1 ≤ x.1
    · simp only [insertDesc, if_pos h]
    · simp only [insertDesc, if_neg h]
      have hlt : x.1 < y.1 := lt_of_not_le h
      by_cases hy : y.1 = s
      · have hx : x.1 ≠ s := fun hx => (hx ▸ hy ▸ hlt).false
        simp only [List.filter_cons, hy, hx, decide_eq_true_eq, if_true,
          if_false, decide_True, decide_False, ih]
        simp [List.filter_cons, hx]
      · by_cases hx : x.1 = s
        · simp only [List.filter_cons, hy, hx, decide_True, decide_False,
            if_true, if_false, ih]
          simp [List.filter_cons, hy, hx]
        · simp only [List.filter_cons, hy, hx, decide_False, if_false, ih]
          simp [List.filter_cons, hy, hx]

theorem sortDesc_filter_score (l : List (ℝ × Nat)) (s : ℝ) :
    (sortDesc l).filter (fun p => decide (p.1 = s)) =
      l.filter (fun p => decide (p.1 = s)) := by
  induction l with
  | nil => rfl
  | cons x l ih =>
    rw [sortDesc, insertDesc_filter_score]
    simp only [List.filter_cons, ih]

/-- C4: `rank` emits one `(score, document_id)` pair per index entry, scored
by `similarity` against the query vector, sorted by descending score, and —
because the sort is stable — entries with equal scores keep the index's
insertion order (their filtered subsequences coincide); nothing is filtered
out. -/
theorem rank_stable_sorted_scores (qv : Concordance)
    (idx : List (Nat × Concordance)) :
    (rank qv idx).Perm (idx.map (fun p => (similarity qv p.2, p.1))) ∧
      List.Pairwise ScoreGE (rank qv idx) ∧
      ∀ s : ℝ, (rank qv idx).filter (fun p => decide (p.1 = s)) =
        (idx.map (fun p => (similarity qv p.2, p.1))).filter
          (fun p => decide (p.1 = s)) :=
  ⟨sortDesc_perm _, sortDesc_pairwise _, fun s => sortDesc_filter_score _ s⟩

end VectorSearch
